import Mathlib

/-!
Shallow embedding of the two code-generation scripts of the bluefang
repository:

* `src/sdp/generate_ids.py` : the name-normalization routine `constify`
  and the loop that prints one Rust constant per registry entry.
* `src/hci/consts/generate_company_list.py` : the loop that prints one
  match arm per company identifier, between a fixed header and footer.

Strings are modelled as `List Char`; machine-level formatting such as the
Python format specifications `#04x` and `04x` is modelled over `Nat`.
-/

namespace Bluefang

/-- The character class `A-Z` of the Python regular expressions. -/
def isUpper (c : Char) : Bool := 65 ≤ c.toNat && c.toNat ≤ 90

/-- The character class `a-z` of the Python regular expressions. -/
def isLower (c : Char) : Bool := 97 ≤ c.toNat && c.toNat ≤ 122

/-- The delimiter class of the split in `constify`: hyphen, space, underscore. -/
def isDelim (c : Char) : Bool := c = '-' || c = ' ' || c = '_'

/-- `re.sub` with the literal pattern `IrMC` and replacement `IRMC`:
leftmost, non-overlapping, scanning left to right. -/
def replaceIrMC : List Char → List Char
  | 'I' :: 'r' :: 'M' :: 'C' :: rest => 'I' :: 'R' :: 'M' :: 'C' :: replaceIrMC rest
  | c :: rest => c :: replaceIrMC rest
  | [] => []

/-- `re.sub` with the literal pattern `3D` and replacement `THREED`. -/
def replace3D : List Char → List Char
  | '3' :: 'D' :: rest => 'T' :: 'H' :: 'R' :: 'E' :: 'E' :: 'D' :: replace3D rest
  | c :: rest => c :: replace3D rest
  | [] => []

/-- `re.split` on a single-character class: a fragment ends at every
delimiter character, and consecutive delimiters yield empty fragments. -/
def splitBy (p : Char → Bool) : List Char → List (List Char)
  | [] => [[]]
  | c :: rest =>
    if p c then [] :: splitBy p rest
    else
      match splitBy p rest with
      | [] => [[c]]
      | w :: ws => (c :: w) :: ws

/-- The lookahead of the camel-case regular expression: it succeeds when the
rest of the fragment starts with `A-Z`, is empty, or is a single trailing
newline (the dollar anchor of Python `re` also matches there). -/
def lookAZdollar : List Char → Bool
  | [] => true
  | c :: t => isUpper c || (c == '\n' && t.isEmpty)

/-- One attempted match of the camel-case regular expression at the start of
`c :: rest`.  Returns the matched piece together with how many characters of
`rest` it consumed, or `none` when the expression does not match here.
The expression is an uppercase letter followed by either a maximal nonempty
run of lowercase letters, or a greedy run of uppercase letters that backtracks
just enough for the lookahead to succeed. -/
def matchAt (c : Char) (rest : List Char) : Option (List Char × Nat) :=
  if isUpper c then
    let low := rest.takeWhile isLower
    if low.isEmpty then
      let ups := rest.takeWhile isUpper
      let rest2 := rest.drop ups.length
      if lookAZdollar rest2 then some (c :: ups, ups.length)
      else if ups.isEmpty then none
      else some (c :: ups.dropLast, ups.length - 1)
    else some (c :: low, low.length)
  else none

/-- `re.findall` of the camel-case expression: scan left to right, at each
position take the leftmost match if any and continue after it, otherwise
advance one character.  The fuel argument bounds the number of scanning
steps; every step consumes at least one character, so the length of the
input is always enough fuel. -/
def findallAux : Nat → List Char → List (List Char)
  | 0, _ => []
  | _ + 1, [] => []
  | fuel + 1, c :: rest =>
    match matchAt c rest with
    | some (piece, k) => piece :: findallAux fuel (rest.drop k)
    | none => findallAux fuel rest

/-- `re.findall(r'[A-Z](?:[a-z]+|[A-Z]*(?=[A-Z]|$))', s)`. -/
def findall (s : List Char) : List (List Char) := findallAux s.length s

/-- Python `str.upper` restricted to ASCII, which is all the matched pieces
can contain: a lowercase ASCII letter is shifted down by 32, every other
character is unchanged. -/
def pyUpperChar (c : Char) : Char :=
  if isLower c then Char.ofNat (c.toNat - 32) else c

/-- Python `sep.join`: concatenate the pieces with the separator between
consecutive pieces. -/
def joinSep (sep : List Char) : List (List Char) → List Char
  | [] => []
  | [w] => w
  | w :: ws => w ++ sep ++ joinSep sep ws

/-- The name normalization routine of `generate_ids.py`:
remove slashes, rewrite `IrMC` to `IRMC` and `3D` to `THREED`, split on
hyphen, space and underscore discarding empty fragments, camel-case split
every fragment, uppercase every piece and join the pieces with
underscores. -/
def constify (name : List Char) : List Char :=
  let s1 := name.filter (fun c => c != '/')
  let s2 := replaceIrMC s1
  let s3 := replace3D s2
  let frags := (splitBy isDelim s3).filter (fun w => !w.isEmpty)
  let words := (frags.map findall).flatten
  joinSep ['_'] (words.map (fun w => w.map pyUpperChar))

/-- Lowercase hexadecimal digit characters, as produced by Python `x`
formatting. -/
def hexDigitChar : Nat → Char
  | 0 => '0'
  | 1 => '1'
  | 2 => '2'
  | 3 => '3'
  | 4 => '4'
  | 5 => '5'
  | 6 => '6'
  | 7 => '7'
  | 8 => '8'
  | 9 => '9'
  | 10 => 'a'
  | 11 => 'b'
  | 12 => 'c'
  | 13 => 'd'
  | 14 => 'e'
  | 15 => 'f'
  | _ => '0'

/-- Digit accumulation for lowercase hexadecimal rendering; the fuel bounds
the number of divisions and the value itself is always enough fuel. -/
def toHexAux : Nat → Nat → List Char → List Char
  | 0, _, acc => acc
  | fuel + 1, n, acc =>
    if n = 0 then acc
    else toHexAux fuel (n / 16) (hexDigitChar (n % 16) :: acc)

/-- Minimum-width lowercase hexadecimal digits of `n`, as Python `x`
formatting produces them. -/
def toHex (n : Nat) : List Char :=
  if n = 0 then ['0'] else toHexAux n n []

/-- Python format specification `#04x`: the `0x` ligature followed by the
hexadecimal digits, zero-padded so that the whole literal is at least four
characters wide, hence the digits at least two. -/
def fmtHash04x (n : Nat) : List Char :=
  '0' :: 'x' :: (List.replicate (2 - (toHex n).length) '0' ++ toHex n)

/-- Python format specification `04x`: the hexadecimal digits zero-padded
to at least four digits, without a prefix. -/
def fmt04x (n : Nat) : List Char :=
  List.replicate (4 - (toHex n).length) '0' ++ toHex n

/-- Python `name.replace` of a double quote by a backslash-quote pair,
applied to every occurrence. -/
def escapeQuotes : List Char → List Char
  | [] => []
  | '"' :: rest => '\\' :: '"' :: escapeQuotes rest
  | c :: rest => c :: escapeQuotes rest

/-- One registry record of the service-class document: a `name` and a
`uuid` integer field. -/
structure UuidEntry where
  name : List Char
  uuid : Nat
deriving DecidableEq

/-- One registry record of the company-identifier document: a `value`
integer field and a `name`. -/
structure CompanyEntry where
  value : Nat
  name : List Char
deriving DecidableEq

/-- The line printed for one service-class entry by `generate_ids.py`. -/
def uuidLine (e : UuidEntry) : List Char :=
  ("pub const ".data) ++ constify e.name ++ (": Uuid = Uuid::from_u16(".data)
    ++ fmtHash04x e.uuid ++ (");".data)

/-- The line printed for one company entry by `generate_company_list.py`. -/
def armLine (e : CompanyEntry) : List Char :=
  ("    0x".data) ++ fmt04x e.value ++ (" => Some(\"".data)
    ++ escapeQuotes e.name ++ ("\"),".data)

/-- The observable behaviour of one script run: the lines written to
standard output, and the error message of the uncaught exception when the
run crashed (`none` when it exited normally). -/
structure RunResult where
  output : List (List Char)
  error : Option (List Char)
deriving DecidableEq

/-- `generate_ids.py` applied to a fetched document: `none` models a
document without the `uuids` top-level key, on which the subscript raises
`KeyError` before anything is printed; otherwise one line is printed per
entry, in order. -/
def runGenerateIds : Option (List UuidEntry) → RunResult
  | none => ⟨[], some ("KeyError: uuids".data)⟩
  | some entries => ⟨entries.map uuidLine, none⟩

/-- `generate_company_list.py` applied to a fetched document: the header
line is printed first, then the subscript raises `KeyError` when the
`company_identifiers` top-level key is missing; otherwise one arm per
entry followed by the default arm and the closing brace. -/
def runCompanyList : Option (List CompanyEntry) → RunResult
  | none => ⟨[("match self.0 \x7b".data)], some ("KeyError: company_identifiers".data)⟩
  | some entries =>
      ⟨("match self.0 \x7b".data) :: (entries.map armLine
        ++ [("    _ => None".data), ("\x7d".data)]), none⟩

/-- The numeric value of a lowercase hexadecimal digit character, used to
read back the emitted literals. -/
def hexVal : Char → Nat
  | '0' => 0
  | '1' => 1
  | '2' => 2
  | '3' => 3
  | '4' => 4
  | '5' => 5
  | '6' => 6
  | '7' => 7
  | '8' => 8
  | '9' => 9
  | 'a' => 10
  | 'b' => 11
  | 'c' => 12
  | 'd' => 13
  | 'e' => 14
  | 'f' => 15
  | _ => 0

/-- The number denoted by a string of lowercase hexadecimal digits. -/
def fromHex (l : List Char) : Nat :=
  l.foldl (fun x c => 16 * x + hexVal c) 0

/-- A character that may appear in a lowercase hexadecimal literal body:
a decimal digit or one of the letters a to f. -/
def isHexLowerDigit (c : Char) : Bool :=
  (48 ≤ c.toNat && c.toNat ≤ 57) || (97 ≤ c.toNat && c.toNat ≤ 102)

/-- The shape every normalized identifier must have: empty, or nonempty
runs of uppercase ASCII letters joined by single underscores, with no
leading, trailing or doubled underscore and no other character. -/
def goodConst (l : List Char) : Bool :=
  l.isEmpty || (splitBy (fun c => c == '_') l).all (fun w => !w.isEmpty && w.all isUpper)

/-- A left-to-right lexer check that every double quote of the list is
consumed by a preceding backslash escape, so that the list can stand
between the quotes of a string literal. -/
def literalOk : List Char → Bool
  | [] => true
  | '\\' :: _ :: rest => literalOk rest
  | '"' :: _ => false
  | _ :: rest => literalOk rest

/-! ### Character facts -/

theorem isLower_eq_false_of_isUpper {c : Char} (h : isUpper c = true) : isLower c = false := by
  simp only [isUpper, Bool.and_eq_true, decide_eq_true_eq] at h
  simp only [isLower, Bool.and_eq_false_iff, decide_eq_false_iff_not]
  omega

theorem charOfNat_toNat {m : Nat} (h1 : 65 ≤ m) (h2 : m ≤ 90) : (Char.ofNat m).toNat = m := by
  interval_cases m <;> decide

theorem pyUpperChar_eq_self {c : Char} (h : isUpper c = true) : pyUpperChar c = c := by
  unfold pyUpperChar
  rw [isLower_eq_false_of_isUpper h]
  rfl

theorem isUpper_pyUpperChar {c : Char} (h : (isUpper c || isLower c) = true) :
    isUpper (pyUpperChar c) = true := by
  rcases (Bool.or_eq_true _ _).mp h with hu | hl
  · rw [pyUpperChar_eq_self hu]; exact hu
  · have hb : 97 ≤ c.toNat ∧ c.toNat ≤ 122 := by
      simpa only [isLower, Bool.and_eq_true, decide_eq_true_eq] using hl
    unfold pyUpperChar
    rw [hl]
    simp only [if_true]
    have ht : (Char.ofNat (c.toNat - 32)).toNat = c.toNat - 32 :=
      charOfNat_toNat (by omega) (by omega)
    simp only [isUpper, ht, Bool.and_eq_true, decide_eq_true_eq]
    omega

/-! ### Facts about the camel-case matcher -/

theorem matchAt_some {c : Char} {rest piece : List Char} {k : Nat}
    (h : matchAt c rest = some (piece, k)) :
    piece ≠ [] ∧ ∀ d ∈ piece, (isUpper d || isLower d) = true := by
  unfold matchAt at h
  by_cases hu : isUpper c = true
  · rw [if_pos hu] at h
    simp only at h
    by_cases hlow : (rest.takeWhile isLower).isEmpty = true
    · rw [if_pos hlow] at h
      by_cases hlk : lookAZdollar (rest.drop (rest.takeWhile isUpper).length) = true
      · rw [if_pos hlk] at h
        obtain ⟨h1, h2⟩ := Prod.mk.injEq .. ▸ Option.some.injEq .. ▸ h
        refine ⟨by rw [← h1]; simp, ?_⟩
        intro d hd
        rw [← h1] at hd
        rcases List.mem_cons.mp hd with rfl | hd2
        · simp [hu]
        · simp [List.mem_takeWhile_imp hd2]
      · rw [if_neg hlk] at h
        by_cases hups : (rest.takeWhile isUpper).isEmpty = true
        · rw [if_pos hups] at h
          cases h
        · rw [if_neg hups] at h
          obtain ⟨h1, h2⟩ := Prod.mk.injEq .. ▸ Option.some.injEq .. ▸ h
          refine ⟨by rw [← h1]; simp, ?_⟩
          intro d hd
          rw [← h1] at hd
          rcases List.mem_cons.mp hd with rfl | hd2
          · simp [hu]
          · have : d ∈ rest.takeWhile isUpper := List.dropLast_subset _ hd2
            simp [List.mem_takeWhile_imp this]
    · rw [if_neg hlow] at h
      obtain ⟨h1, h2⟩ := Prod.mk.injEq .. ▸ Option.some.injEq .. ▸ h
      refine ⟨by rw [← h1]; simp, ?_⟩
      intro d hd
      rw [← h1] at hd
      rcases List.mem_cons.mp hd with rfl | hd2
      · simp [hu]
      · simp [List.mem_takeWhile_imp hd2]
  · rw [if_neg hu] at h
    cases h

theorem findallAux_nil (fuel : Nat) : findallAux fuel [] = [] := by
  cases fuel <;> rfl

theorem findallAux_pieces :
    ∀ (fuel : Nat) (l : List Char), ∀ p ∈ findallAux fuel l,
      p ≠ [] ∧ ∀ d ∈ p, (isUpper d || isLower d) = true := by
  intro fuel
  induction fuel with
  | zero => intro l p hp; cases hp
  | succ fuel ih =>
    intro l p hp
    cases l with
    | nil => cases hp
    | cons c rest =>
      rw [findallAux] at hp
      cases hm : matchAt c rest with
      | none => rw [hm] at hp; exact ih rest p hp
      | some pk =>
        obtain ⟨piece, k⟩ := pk
        rw [hm] at hp
        simp only at hp
        rcases List.mem_cons.mp hp with rfl | hp2
        · exact matchAt_some hm
        · exact ih _ p hp2

theorem findall_pieces {l : List Char} :
    ∀ p ∈ findall l, p ≠ [] ∧ ∀ d ∈ p, (isUpper d || isLower d) = true :=
  findallAux_pieces l.length l

theorem findall_all_upper {l : List Char} (h0 : l ≠ []) (h : ∀ c ∈ l, isUpper c = true) :
    findall l = [l] := by
  cases l with
  | nil => cases h0 rfl
  | cons c rest =>
    have hc : isUpper c = true := h c (by simp)
    have hrest : ∀ d ∈ rest, isUpper d = true := fun d hd => h d (by simp [hd])
    have hlow : rest.takeWhile isLower = [] := by
      cases rest with
      | nil => rfl
      | cons d t =>
        rw [List.takeWhile_cons, if_neg]
        rw [isLower_eq_false_of_isUpper (hrest d (by simp))]
        simp
    have hups : rest.takeWhile isUpper = rest := List.takeWhile_eq_self_iff.mpr hrest
    have hm : matchAt c rest = some (c :: rest, rest.length) := by
      unfold matchAt
      rw [if_pos hc]
      simp only [hlow, hups, List.isEmpty_nil, if_pos, List.drop_length]
      rfl
    show findallAux (rest.length + 1) (c :: rest) = [c :: rest]
    rw [findallAux, hm]
    simp only [List.drop_length, findallAux_nil]

theorem findallAux_no_upper :
    ∀ (fuel : Nat) (l : List Char), (∀ c ∈ l, isUpper c = false) → findallAux fuel l = [] := by
  intro fuel
  induction fuel with
  | zero => intro l _; rfl
  | succ fuel ih =>
    intro l h
    cases l with
    | nil => rfl
    | cons c rest =>
      have hm : matchAt c rest = none := by
        unfold matchAt
        rw [if_neg]
        rw [h c (by simp)]
        simp
      rw [findallAux, hm]
      exact ih rest (fun d hd => h d (by simp [hd]))

theorem findall_no_upper {l : List Char} (h : ∀ c ∈ l, isUpper c = false) : findall l = [] :=
  findallAux_no_upper l.length l h

/-! ### Facts about splitting and joining -/

theorem splitBy_ne_nil (p : Char → Bool) : ∀ l : List Char, splitBy p l ≠ [] := by
  intro l
  induction l with
  | nil => simp [splitBy]
  | cons c rest ih =>
    rw [splitBy]
    split
    · simp
    · cases hs : splitBy p rest with
      | nil => exact absurd hs ih
      | cons w ws => simp

theorem mem_splitBy (p : Char → Bool) :
    ∀ (l w : List Char) (c : Char), w ∈ splitBy p l → c ∈ w → c ∈ l := by
  intro l
  induction l with
  | nil =>
    intro w c hw hc
    simp only [splitBy, List.mem_singleton] at hw
    subst hw
    cases hc
  | cons a rest ih =>
    intro w c hw hc
    rw [splitBy] at hw
    by_cases hp : p a = true
    · rw [if_pos hp] at hw
      rcases List.mem_cons.mp hw with rfl | hw2
      · cases hc
      · exact List.mem_cons_of_mem a (ih w c hw2 hc)
    · rw [if_neg hp] at hw
      cases hs : splitBy p rest with
      | nil => exact absurd hs (splitBy_ne_nil p rest)
      | cons w0 ws =>
        rw [hs] at hw
        rcases List.mem_cons.mp hw with rfl | hw2
        · rcases List.mem_cons.mp hc with rfl | hc2
          · simp
          · have hw0 : w0 ∈ splitBy p rest := by rw [hs]; simp
            exact List.mem_cons_of_mem a (ih w0 c hw0 hc2)
        · have hwr : w ∈ splitBy p rest := by rw [hs]; simp [hw2]
          exact List.mem_cons_of_mem a (ih w c hwr hc)

theorem splitBy_all_false (p : Char → Bool) :
    ∀ l : List Char, (∀ c ∈ l, p c = false) → splitBy p l = [l] := by
  intro l
  induction l with
  | nil => intro _; rfl
  | cons a rest ih =>
    intro h
    rw [splitBy, if_neg (by rw [h a (by simp)]; simp), ih (fun c hc => h c (by simp [hc]))]

theorem splitBy_append_sep (p : Char → Bool) (s : Char) (hs : p s = true) :
    ∀ (w t : List Char), (∀ c ∈ w, p c = false) →
      splitBy p (w ++ s :: t) = w :: splitBy p t := by
  intro w
  induction w with
  | nil =>
    intro t _
    simp only [List.nil_append]
    rw [splitBy, if_pos hs]
  | cons a w ih =>
    intro t h
    simp only [List.cons_append]
    rw [splitBy, if_neg (by rw [h a (by simp)]; simp),
      ih t (fun c hc => h c (by simp [hc]))]

theorem splitBy_joinSep (p : Char → Bool) (s : Char) (hs : p s = true) :
    ∀ ws : List (List Char), ws ≠ [] → (∀ w ∈ ws, ∀ c ∈ w, p c = false) →
      splitBy p (joinSep [s] ws) = ws := by
  intro ws
  induction ws with
  | nil => intro h; cases h rfl
  | cons w ws ih =>
    intro _ h
    cases ws with
    | nil => exact splitBy_all_false p w (h w (by simp))
    | cons w2 ws2 =>
      show splitBy p ((w ++ [s]) ++ joinSep [s] (w2 :: ws2)) = w :: w2 :: ws2
      rw [List.append_assoc]
      show splitBy p (w ++ s :: joinSep [s] (w2 :: ws2)) = w :: w2 :: ws2
      rw [splitBy_append_sep p s hs w _ (h w (by simp)),
        ih (by simp) (fun u hu c hc => h u (by simp [hu]) c hc)]

theorem mem_joinSep (s : Char) :
    ∀ (ws : List (List Char)) (c : Char), c ∈ joinSep [s] ws → c = s ∨ ∃ w ∈ ws, c ∈ w := by
  intro ws
  induction ws with
  | nil => intro c hc; cases hc
  | cons w ws ih =>
    intro c hc
    cases ws with
    | nil => exact Or.inr ⟨w, by simp, hc⟩
    | cons w2 ws2 =>
      have hc2 : c ∈ (w ++ [s]) ++ joinSep [s] (w2 :: ws2) := hc
      rcases List.mem_append.mp hc2 with hl | hr
      · rcases List.mem_append.mp hl with hw | hs2
        · exact Or.inr ⟨w, by simp, hw⟩
        · exact Or.inl (List.mem_singleton.mp hs2)
      · rcases ih c hr with rfl | ⟨u, hu, hcu⟩
        · exact Or.inl rfl
        · exact Or.inr ⟨u, by simp [hu], hcu⟩

/-! ### Facts about the literal substitutions -/

theorem replaceIrMC_eq_self : ∀ l : List Char, (∀ c ∈ l, c ≠ 'r') → replaceIrMC l = l := by
  intro l
  induction l using replaceIrMC.induct with
  | case1 rest _ =>
    intro h
    exact absurd rfl (h 'r' (by simp))
  | case2 c rest _ ih =>
    intro h
    rw [replaceIrMC.eq_def]
    split
    · rename_i rest2 heq
      exact absurd rfl (h 'r' (by rw [heq]; simp))
    · rename_i c2 rest2 heq
      injection heq with h1 h2
      subst h1
      subst h2
      exact congrArg (c :: ·) (ih (fun d hd => h d (by simp [hd])))
    · rename_i heq
      simp at heq
  | case3 => intro _; rfl

theorem replace3D_eq_self : ∀ l : List Char, (∀ c ∈ l, c ≠ '3') → replace3D l = l := by
  intro l
  induction l using replace3D.induct with
  | case1 rest _ =>
    intro h
    exact absurd rfl (h '3' (by simp))
  | case2 c rest _ ih =>
    intro h
    rw [replace3D.eq_def]
    split
    · rename_i rest2 heq
      exact absurd rfl (h '3' (by rw [heq]; simp))
    · rename_i c2 rest2 heq
      injection heq with h1 h2
      subst h1
      subst h2
      exact congrArg (c :: ·) (ih (fun d hd => h d (by simp [hd])))
    · rename_i heq
      simp at heq
  | case3 => intro _; rfl

/-! ### The normal form of constify output -/

/-- A list of words is in identifier normal form when every word is a
nonempty run of uppercase ASCII letters. -/
def GoodWords (ws : List (List Char)) : Prop :=
  ∀ w ∈ ws, w ≠ [] ∧ ∀ c ∈ w, isUpper c = true

theorem flatten_map_singleton : ∀ l : List (List Char), (l.map (fun w => [w])).flatten = l := by
  intro l
  induction l with
  | nil => rfl
  | cons a as ih => simp only [List.map_cons, List.flatten_cons, List.singleton_append, ih]

theorem map_pyUpperChar_id {w : List Char} (h : ∀ c ∈ w, isUpper c = true) :
    w.map pyUpperChar = w := by
  have := List.map_congr_left (l := w) (f := pyUpperChar) (g := id)
    (fun c hc => pyUpperChar_eq_self (h c hc))
  rw [this, List.map_id]

theorem constify_normal_form (s : List Char) :
    ∃ ws, constify s = joinSep ['_'] ws ∧ GoodWords ws := by
  unfold constify
  refine ⟨_, rfl, ?_⟩
  intro w hw
  rcases List.mem_map.mp hw with ⟨u, hu, rfl⟩
  rcases List.mem_flatten.mp hu with ⟨pieces, hpieces, hupieces⟩
  rcases List.mem_map.mp hpieces with ⟨frag, _, rfl⟩
  obtain ⟨hne, hletters⟩ := findall_pieces u hupieces
  constructor
  · simp [hne]
  · intro c hc
    rcases List.mem_map.mp hc with ⟨d, hd, rfl⟩
    exact isUpper_pyUpperChar (hletters d hd)

theorem constify_joinSep {ws : List (List Char)} (h : GoodWords ws) :
    constify (joinSep ['_'] ws) = joinSep ['_'] ws := by
  have hchar : ∀ c ∈ joinSep ['_'] ws, c = '_' ∨ (isUpper c = true) := by
    intro c hc
    rcases mem_joinSep '_' ws c hc with rfl | ⟨w, hw, hcw⟩
    · exact Or.inl rfl
    · exact Or.inr ((h w hw).2 c hcw)
  have hslash : (joinSep ['_'] ws).filter (fun c => c != '/') = joinSep ['_'] ws := by
    apply List.filter_eq_self.mpr
    intro c hc
    rcases hchar c hc with rfl | hup
    · rfl
    · simp only [isUpper, Bool.and_eq_true, decide_eq_true_eq] at hup
      simp only [bne_iff_ne, ne_eq]
      intro heq
      rw [heq] at hup
      revert hup
      decide
  have hirmc : replaceIrMC (joinSep ['_'] ws) = joinSep ['_'] ws := by
    apply replaceIrMC_eq_self
    intro c hc hceq
    rcases hchar c hc with rfl | hup
    · cases hceq
    · rw [hceq] at hup
      revert hup
      decide
  have h3d : replace3D (joinSep ['_'] ws) = joinSep ['_'] ws := by
    apply replace3D_eq_self
    intro c hc hceq
    rcases hchar c hc with rfl | hup
    · cases hceq
    · rw [hceq] at hup
      revert hup
      decide
  simp only [constify]
  rw [hslash, hirmc, h3d]
  cases hws : ws with
  | nil => rfl
  | cons w0 ws0 =>
    rw [← hws]
    have hsplit : splitBy isDelim (joinSep ['_'] ws) = ws := by
      apply splitBy_joinSep isDelim '_' (by decide) ws (by rw [hws]; simp)
      intro w hw c hc
      have hup := (h w hw).2 c hc
      simp only [isUpper, Bool.and_eq_true, decide_eq_true_eq] at hup
      simp only [isDelim, Bool.or_eq_false_iff, decide_eq_false_iff_not]
      refine ⟨⟨?_, ?_⟩, ?_⟩ <;> intro hceq <;> rw [hceq] at hup <;> revert hup <;> decide
    rw [hsplit]
    have hfilter : ws.filter (fun w => !w.isEmpty) = ws := by
      apply List.filter_eq_self.mpr
      intro w hw
      have := (h w hw).1
      simp [this]
    rw [hfilter]
    have hmapfindall : ws.map findall = ws.map (fun w => [w]) :=
      List.map_congr_left (fun w hw => findall_all_upper (h w hw).1 (h w hw).2)
    rw [hmapfindall]
    rw [flatten_map_singleton ws]
    have hmapupper : ws.map (fun w => w.map pyUpperChar) = ws := by
      have := List.map_congr_left (l := ws) (f := fun w => w.map pyUpperChar) (g := id)
        (fun w hw => map_pyUpperChar_id (h w hw).2)
      rw [this, List.map_id]
    rw [hmapupper]

/-! ### Facts about hexadecimal formatting -/

theorem toHexAux_zero (fuel : Nat) (acc : List Char) : toHexAux fuel 0 acc = acc := by
  cases fuel <;> rfl

theorem toHexAux_append :
    ∀ (fuel n : Nat) (acc : List Char), toHexAux fuel n acc = toHexAux fuel n [] ++ acc := by
  intro fuel
  induction fuel with
  | zero => intro n acc; rfl
  | succ fuel ih =>
    intro n acc
    by_cases hn : n = 0
    · subst hn; rw [toHexAux_zero, toHexAux_zero]; rfl
    · rw [toHexAux, if_neg hn]
      conv_rhs => rw [toHexAux, if_neg hn]
      rw [ih (n / 16) (hexDigitChar (n % 16) :: acc), ih (n / 16) [hexDigitChar (n % 16)]]
      rw [List.append_assoc]
      rfl

theorem toHexAux_ne_nil (fuel n : Nat) (h1 : 0 < n) (h2 : n ≤ fuel) :
    toHexAux fuel n [] ≠ [] := by
  cases fuel with
  | zero => omega
  | succ fuel =>
    rw [toHexAux, if_neg (by omega), toHexAux_append]
    simp

theorem toHex_ne_nil (n : Nat) : toHex n ≠ [] := by
  unfold toHex
  by_cases hn : n = 0
  · rw [if_pos hn]; simp
  · rw [if_neg hn]; exact toHexAux_ne_nil n n (by omega) le_rfl

theorem isHexLowerDigit_hexDigitChar (m : Nat) : isHexLowerDigit (hexDigitChar m) = true := by
  rcases Nat.lt_or_ge m 16 with h | h
  · interval_cases m <;> decide
  · obtain ⟨k, rfl⟩ : ∃ k, m = k + 16 := ⟨m - 16, by omega⟩
    show isHexLowerDigit '0' = true
    decide

theorem hexVal_hexDigitChar (m : Nat) (h : m < 16) : hexVal (hexDigitChar m) = m := by
  interval_cases m <;> decide

theorem toHexAux_chars :
    ∀ (fuel n : Nat) (acc : List Char), (∀ c ∈ acc, isHexLowerDigit c = true) →
      ∀ c ∈ toHexAux fuel n acc, isHexLowerDigit c = true := by
  intro fuel
  induction fuel with
  | zero => intro n acc hacc c hc; exact hacc c hc
  | succ fuel ih =>
    intro n acc hacc c hc
    rw [toHexAux] at hc
    by_cases hn : n = 0
    · rw [if_pos hn] at hc; exact hacc c hc
    · rw [if_neg hn] at hc
      refine ih _ _ ?_ c hc
      intro d hd
      rcases List.mem_cons.mp hd with rfl | hd2
      · exact isHexLowerDigit_hexDigitChar _
      · exact hacc d hd2

theorem toHex_chars (n : Nat) : ∀ c ∈ toHex n, isHexLowerDigit c = true := by
  unfold toHex
  by_cases hn : n = 0
  · rw [if_pos hn]
    intro c hc
    rcases List.mem_singleton.mp hc with rfl
    decide
  · rw [if_neg hn]
    exact toHexAux_chars n n [] (by intro c hc; cases hc)

theorem toHexAux_length :
    ∀ (fuel n k : Nat) (acc : List Char), n ≤ fuel → n < 16 ^ k →
      (toHexAux fuel n acc).length ≤ k + acc.length := by
  intro fuel
  induction fuel with
  | zero => intro n k acc h1 h2; simp [toHexAux]
  | succ fuel ih =>
    intro n k acc h1 h2
    by_cases hn : n = 0
    · rw [toHexAux, if_pos hn]; omega
    · rw [toHexAux, if_neg hn]
      have hk : k ≠ 0 := by
        intro hk0
        rw [hk0, pow_zero] at h2
        omega
      have h16 : (16 : Nat) ^ k = 16 * 16 ^ (k - 1) := by
        conv_lhs => rw [show k = (k - 1) + 1 by omega]
        rw [pow_succ]
        ring
      have hdiv : n / 16 < 16 ^ (k - 1) := Nat.div_lt_of_lt_mul (h16 ▸ h2)
      have hfuel : n / 16 ≤ fuel := by
        have := Nat.div_lt_self (by omega : 0 < n) (by omega : 1 < 16)
        omega
      have := ih (n / 16) (k - 1) (hexDigitChar (n % 16) :: acc) hfuel hdiv
      simp only [List.length_cons] at this
      omega

theorem toHex_length_le (n k : Nat) (h2 : n < 16 ^ k) (hk : 0 < k) : (toHex n).length ≤ k := by
  unfold toHex
  by_cases hn : n = 0
  · rw [if_pos hn]; simpa using hk
  · rw [if_neg hn]
    have := toHexAux_length n n k [] le_rfl h2
    simpa using this

theorem fromHex_append_digit (l : List Char) (d : Char) :
    fromHex (l ++ [d]) = 16 * fromHex l + hexVal d := by
  unfold fromHex
  rw [List.foldl_append]
  rfl

theorem toHexAux_fromHex :
    ∀ (fuel n : Nat), 0 < n → n ≤ fuel → fromHex (toHexAux fuel n []) = n := by
  intro fuel
  induction fuel with
  | zero => intro n h1 h2; omega
  | succ fuel ih =>
    intro n h1 h2
    rw [toHexAux, if_neg (by omega), toHexAux_append, fromHex_append_digit]
    rw [hexVal_hexDigitChar _ (Nat.mod_lt n (by omega))]
    by_cases hdiv : n / 16 = 0
    · rw [hdiv, toHexAux_zero]
      have hmod := Nat.div_add_mod n 16
      have : fromHex [] = 0 := rfl
      rw [this]
      omega
    · have hfuel : n / 16 ≤ fuel := by
        have := Nat.div_lt_self (by omega : 0 < n) (by omega : 1 < 16)
        omega
      rw [ih (n / 16) (by omega) hfuel]
      have hmod := Nat.div_add_mod n 16
      omega

theorem fromHex_toHex (n : Nat) : fromHex (toHex n) = n := by
  unfold toHex
  by_cases hn : n = 0
  · rw [if_pos hn, hn]; rfl
  · rw [if_neg hn]; exact toHexAux_fromHex n n (by omega) le_rfl

theorem fromHex_replicate_zero :
    ∀ (j : Nat) (l : List Char), fromHex (List.replicate j '0' ++ l) = fromHex l := by
  intro j
  induction j with
  | zero => intro l; rfl
  | succ j ih =>
    intro l
    rw [List.replicate_succ, List.cons_append]
    show fromHex (List.replicate j '0' ++ l) = fromHex l
    exact ih l

theorem fromHex_fmt04x (n : Nat) : fromHex (fmt04x n) = n := by
  unfold fmt04x
  rw [fromHex_replicate_zero, fromHex_toHex]

/-! ### Facts about the identifier shape and the quote escaping -/

theorem goodConst_joinSep {ws : List (List Char)} (h : GoodWords ws) :
    goodConst (joinSep ['_'] ws) = true := by
  cases ws with
  | nil => rfl
  | cons w0 ws0 =>
    unfold goodConst
    have hnd : ∀ w ∈ w0 :: ws0, ∀ c ∈ w, (c == '_') = false := by
      intro w hw c hc
      have hup := (h w hw).2 c hc
      simp only [isUpper, Bool.and_eq_true, decide_eq_true_eq] at hup
      simp only [beq_eq_false_iff_ne, ne_eq]
      intro hceq
      rw [hceq] at hup
      revert hup
      decide
    rw [splitBy_joinSep (fun c => c == '_') '_' (by decide) (w0 :: ws0) (by simp) hnd]
    have hall : (w0 :: ws0).all (fun w => !w.isEmpty && w.all isUpper) = true := by
      rw [List.all_eq_true]
      intro w hw
      obtain ⟨hne, hupper⟩ := h w hw
      rw [Bool.and_eq_true]
      refine ⟨by simp [hne], ?_⟩
      rw [List.all_eq_true]
      intro c hc
      exact hupper c hc
    rw [hall, Bool.or_true]

theorem escapeQuotes_cons_ne {c : Char} (hc : c ≠ '"') (rest : List Char) :
    escapeQuotes (c :: rest) = c :: escapeQuotes rest := by
  rw [escapeQuotes.eq_def]
  split
  · rename_i heq
    simp at heq
  · rename_i rest2 heq
    injection heq with h1 h2
    exact absurd h1 hc
  · rename_i c2 rest2 heq
    injection heq with h1 h2
    subst h1
    subst h2
    rfl

theorem escapeQuotes_flat (name : List Char) :
    escapeQuotes name = (name.map (fun c => if c = '"' then ['\\', '"'] else [c])).flatten := by
  induction name with
  | nil => rfl
  | cons c rest ih =>
    by_cases hc : c = '"'
    · subst hc
      show '\\' :: '"' :: escapeQuotes rest = _
      rw [List.map_cons, List.flatten_cons, if_pos rfl, ih]
      rfl
    · rw [escapeQuotes_cons_ne hc, List.map_cons, List.flatten_cons, if_neg hc, ih]
      rfl

theorem literalOk_cons {c : Char} (h1 : c ≠ '\\') (h2 : c ≠ '"') (l : List Char) :
    literalOk (c :: l) = literalOk l := by
  rw [literalOk.eq_def]
  split
  · rename_i heq
    simp at heq
  · rename_i d rest heq
    injection heq with hh1 hh2
    exact absurd hh1 h1
  · rename_i rest heq
    injection heq with hh1 hh2
    exact absurd hh1 h2
  · rename_i c2 rest heq
    injection heq with hh1 hh2
    subst hh1
    subst hh2
    rfl

theorem literalOk_escapeQuotes (name : List Char) (h : '\\' ∉ name) :
    literalOk (escapeQuotes name) = true := by
  induction name with
  | nil => rfl
  | cons c rest ih =>
    have hrest : '\\' ∉ rest := fun hr => h (by simp [hr])
    by_cases hc : c = '"'
    · subst hc
      show literalOk ('\\' :: '"' :: escapeQuotes rest) = true
      show literalOk (escapeQuotes rest) = true
      exact ih hrest
    · have hcb : c ≠ '\\' := fun hb => h (by rw [← hb]; simp)
      rw [escapeQuotes_cons_ne hc, literalOk_cons hcb hc]
      exact ih hrest

/-! ## The claims -/

/-- Claim C1: constify maps the documented fixtures exactly as specified,
the camel-case segmentation splits the fragment BluetoothLE into Bluetooth
and LE and splits THREEDPrinter into THREED and Printer, and an all-caps
fragment with no trailing lowercase stays one piece. -/
theorem constify_fixture_round_trips :
    constify ("Bluetooth LE".data) = ("BLUETOOTH_LE".data)
    ∧ constify ("IrMC Sync".data) = ("IRMC_SYNC".data)
    ∧ constify ("3D Printer".data) = ("THREED_PRINTER".data)
    ∧ constify ("OBEX Object Push".data) = ("OBEX_OBJECT_PUSH".data)
    ∧ findall ("BluetoothLE".data) = [("Bluetooth".data), ("LE".data)]
    ∧ findall ("THREEDPrinter".data) = [("THREED".data), ("Printer".data)]
    ∧ ∀ w : List Char, w ≠ [] → (∀ c ∈ w, isUpper c = true) → findall w = [w] := by
  refine ⟨by decide, by decide, by decide, by decide, by decide, by decide, ?_⟩
  intro w h0 h
  exact findall_all_upper h0 h

/-- Claim C1 witness: the all-caps clause applied at the fragment ABCD. -/
theorem constify_fixture_round_trips_witness :
    ("ABCD".data) ≠ ([] : List Char)
    ∧ (∀ c ∈ ("ABCD".data), isUpper c = true)
    ∧ findall ("ABCD".data) = [("ABCD".data)] :=
  ⟨by decide, by decide,
    constify_fixture_round_trips.2.2.2.2.2.2 ("ABCD".data) (by decide) (by decide)⟩

/-- Claim C2 counterexample: the script has no normalization guard.  A name
consisting of a single hyphen normalizes to the empty identifier and a
constant with an empty identifier is emitted with no error, and two names
normalizing to the same identifier are both emitted silently. -/
theorem generator_emits_unchecked_identifiers :
    constify ("-".data) = []
    ∧ runGenerateIds (some [⟨("-".data), 4⟩]) =
        ⟨[("pub const : Uuid = Uuid::from_u16(0x04);".data)], none⟩
    ∧ constify ("A B".data) = constify ("A-B".data)
    ∧ ("A B".data) ≠ ("A-B".data)
    ∧ runGenerateIds (some [⟨("A B".data), 1⟩, ⟨("A-B".data), 2⟩]) =
        ⟨[("pub const A_B: Uuid = Uuid::from_u16(0x01);".data),
          ("pub const A_B: Uuid = Uuid::from_u16(0x02);".data)], none⟩ :=
  ⟨by decide, by decide, by decide, by decide, by decide⟩

/-- Claim C2 amended: the generator performs no normalization check at all.
For every fetched document whose top-level key is present it emits exactly
one constant declaration per entry and reports no error, regardless of
empty or duplicate normalized identifiers. -/
theorem generator_has_no_normalization_guard (entries : List UuidEntry) :
    runGenerateIds (some entries) = ⟨entries.map uuidLine, none⟩
    ∧ (runGenerateIds (some entries)).output.length = entries.length
    ∧ (runGenerateIds (some entries)).error = none := by
  refine ⟨rfl, ?_, rfl⟩
  simp [runGenerateIds]

/-- Claim C3 counterexample: on a document missing the expected top-level
key, the company-identifier generator does not emit zero output lines; the
header line is printed before the key is looked up. -/
theorem company_header_printed_before_key_lookup :
    (runCompanyList none).error.isSome = true
    ∧ (runCompanyList none).output.length = 1
    ∧ (runCompanyList none).output ≠ [] :=
  ⟨by decide, by decide, by decide⟩

/-- Claim C3 amended: a document lacking the expected top-level key makes
either generator fail with an uncaught KeyError naming the missing key and
a nonzero exit status; the UUID generator has then emitted zero output
lines, while the company-identifier generator has already emitted exactly
its one header line. -/
theorem missing_key_behavior :
    runGenerateIds none = ⟨[], some ("KeyError: uuids".data)⟩
    ∧ runCompanyList none =
        ⟨[("match self.0 \x7b".data)], some ("KeyError: company_identifiers".data)⟩ :=
  ⟨rfl, rfl⟩

/-- Claim C4: constify is idempotent; re-normalizing an already-normalized
token yields the same token. -/
theorem constify_idempotent (s : List Char) : constify (constify s) = constify s := by
  obtain ⟨ws, heq, hgood⟩ := constify_normal_form s
  rw [heq, constify_joinSep hgood]

/-- Claim C5: the UUID-constant generator emits exactly one line per input
record, and the company-identifier generator emits the header, one match
arm per record, exactly one trailing default arm, and the closing brace. -/
theorem emitted_line_counts (ids : List UuidEntry) (comps : List CompanyEntry) :
    (runGenerateIds (some ids)).output.length = ids.length
    ∧ (runCompanyList (some comps)).output =
        ("match self.0 \x7b".data)
          :: (comps.map armLine ++ [("    _ => None".data), ("\x7d".data)])
    ∧ (comps.map armLine).length = comps.length
    ∧ (runCompanyList (some comps)).output.length = comps.length + 3 := by
  refine ⟨by simp [runGenerateIds], rfl, by simp, by simp [runCompanyList]⟩

/-- Claim C6 counterexample: the uuid field is not interpreted as a 16-bit
field; the input value 1193046 is emitted as the full literal 0x123456, not
as its 16-bit truncation 0x3456, and value 4 is emitted as the padded 0x04
rather than the minimum-width 0x4. -/
theorem uuid_hex_not_truncated :
    uuidLine ⟨("Heart Rate".data), 1193046⟩
      = ("pub const HEART_RATE: Uuid = Uuid::from_u16(0x123456);".data)
    ∧ fmtHash04x 1193046 = ("0x123456".data)
    ∧ fmtHash04x (1193046 % 65536) = ("0x3456".data)
    ∧ fmtHash04x 1193046 ≠ fmtHash04x (1193046 % 65536)
    ∧ fmtHash04x 4 = ("0x04".data)
    ∧ ("0x04".data) ≠ ("0x4".data) :=
  ⟨by decide, by decide, by decide, by decide, by decide, by decide⟩

/-- Claim C6 amended: the uuid field is emitted as a lowercase hexadecimal
literal zero-padded to a minimum total width of four characters, hence at
least two hex digits, with no fixed four-digit padding; the integer is
rendered in full with no 16-bit truncation (0x180D emits bound to 0x180d,
4 emits as 0x04, and 1193046 emits as 0x123456). -/
theorem uuid_hex_format (name : List Char) (uuid : Nat) :
    uuidLine ⟨name, uuid⟩
      = ("pub const ".data) ++ constify name ++ (": Uuid = Uuid::from_u16(".data)
          ++ fmtHash04x uuid ++ (");".data)
    ∧ fmtHash04x uuid
        = '0' :: 'x' :: (List.replicate (2 - (toHex uuid).length) '0' ++ toHex uuid)
    ∧ fromHex (List.replicate (2 - (toHex uuid).length) '0' ++ toHex uuid) = uuid
    ∧ (∀ c ∈ toHex uuid, isHexLowerDigit c = true)
    ∧ fmtHash04x 0x180D = ("0x180d".data)
    ∧ fmtHash04x 4 = ("0x04".data)
    ∧ fmtHash04x 1193046 = ("0x123456".data) := by
  refine ⟨rfl, rfl, ?_, toHex_chars uuid, by decide, by decide, by decide⟩
  rw [fromHex_replicate_zero, fromHex_toHex]

/-- Claim C7: every company record with a 16-bit value is emitted as a
fixed-width lowercase hexadecimal literal of exactly four zero-padded hex
digits behind the 0x prefix of the arm, and the digits denote the value. -/
theorem company_hex_format (e : CompanyEntry) (h : e.value < 65536) :
    armLine e = ("    0x".data) ++ fmt04x e.value ++ (" => Some(\"".data)
        ++ escapeQuotes e.name ++ ("\"),".data)
    ∧ (fmt04x e.value).length = 4
    ∧ (∀ c ∈ fmt04x e.value, isHexLowerDigit c = true)
    ∧ fromHex (fmt04x e.value) = e.value := by
  refine ⟨rfl, ?_, ?_, fromHex_fmt04x e.value⟩
  · unfold fmt04x
    rw [List.length_append, List.length_replicate]
    have h16 : (16 : Nat) ^ 4 = 65536 := by norm_num
    have hle : (toHex e.value).length ≤ 4 :=
      toHex_length_le e.value 4 (by rw [h16]; exact h) (by norm_num)
    omega
  · intro c hc
    rcases List.mem_append.mp hc with hrep | hdig
    · rw [List.eq_of_mem_replicate hrep]
      decide
    · exact toHex_chars e.value c hdig

/-- Claim C7 witness: the format clauses applied at the concrete record
with value 4. -/
theorem company_hex_format_witness :
    4 < 65536
    ∧ (fmt04x 4).length = 4
    ∧ fromHex (fmt04x 4) = 4 :=
  ⟨by decide, (company_hex_format ⟨4, ("Ab".data)⟩ (by decide)).2.1,
    (company_hex_format ⟨4, ("Ab".data)⟩ (by decide)).2.2.2⟩

/-- Claim C8: the company-identifier generator escapes exactly the double
quotes of a name and nothing else, the documented fixture emits with
escaped quotes, and for the observed inputs, which contain no backslash,
the escaped text is a valid string-literal body. -/
theorem company_quote_escaping (name : List Char) :
    escapeQuotes name = (name.map (fun c => if c = '"' then ['\\', '"'] else [c])).flatten
    ∧ escapeQuotes ("He said \"hi\"".data) = ("He said \\\"hi\\\"".data)
    ∧ armLine ⟨4, ("He said \"hi\"".data)⟩
        = ("    0x0004 => Some(\"He said \\\"hi\\\"\"),".data)
    ∧ ('\\' ∉ name → literalOk (escapeQuotes name) = true) :=
  ⟨escapeQuotes_flat name, by decide, by decide, literalOk_escapeQuotes name⟩

/-- Claim C8 witness: the escaping clauses applied at the documented
fixture name. -/
theorem company_quote_escaping_witness :
    ('\\' ∉ ("He said \"hi\"".data))
    ∧ literalOk (escapeQuotes ("He said \"hi\"".data)) = true :=
  ⟨by decide, (company_quote_escaping ("He said \"hi\"".data)).2.2.2 (by decide)⟩

/-- Claim C9: for every input, constify returns the empty string or
nonempty runs of uppercase ASCII letters joined by single underscores,
with no other character, no leading or trailing underscore and no doubled
underscore. -/
theorem constify_output_shape (s : List Char) : goodConst (constify s) = true := by
  obtain ⟨ws, heq, hgood⟩ := constify_normal_form s
  rw [heq]
  exact goodConst_joinSep hgood

/-- Claim C10: when the string left after slash removal and the IrMC and
3D substitutions contains no uppercase ASCII letter, constify returns the
empty string; such characters are silently discarded. -/
theorem constify_no_upper_empty (s : List Char)
    (h : ∀ c ∈ replace3D (replaceIrMC (s.filter (fun c => c != '/'))),
      isUpper c = false) :
    constify s = [] := by
  simp only [constify]
  have h1 : (((splitBy isDelim (replace3D (replaceIrMC (s.filter (fun c => c != '/'))))).filter
      (fun w => !w.isEmpty)).map findall).flatten = [] := by
    rw [List.flatten_eq_nil_iff]
    intro l hl
    rcases List.mem_map.mp hl with ⟨w, hw, rfl⟩
    apply findall_no_upper
    intro c hc
    exact h c (mem_splitBy isDelim _ w c (List.mem_of_mem_filter hw) hc)
  rw [h1]
  rfl

/-- Claim C10 witness: a name of lowercase letters, digits and a delimiter
normalizes to the empty string. -/
theorem constify_no_upper_empty_witness :
    (∀ c ∈ replace3D (replaceIrMC (("abc-123".data).filter (fun c => c != '/'))),
      isUpper c = false)
    ∧ constify ("abc-123".data) = [] :=
  ⟨by decide, constify_no_upper_empty ("abc-123".data) (by decide)⟩

end Bluefang
